import Mathlib

/-!
Verification development for the indirect-rates forecasting engine
(`src/indirectrates/model.py`, `src/indirectrates/ytd.py`).

The pandas code is shallowly embedded over exact rationals:

* a `Period` (pandas monthly `pd.Period`) is an integer month count
  `12 * year + (month - 1)`, so ordering and month arithmetic agree with
  pandas `Period` arithmetic;
* a period-indexed DataFrame column is a total function `ℤ → ℚ`; a column
  reindexed with `fill_value=0.0` (or `fillna(0.0)`) is modelled by the
  function returning `0` off its index, matching the code's handling;
* dollar amounts are `ℚ` (the worked-example values are all exactly
  representable, and the code's float arithmetic on them is exact).
-/

namespace IndirectRates

/-- A calendar month encoded as `12 * year + (month - 1)`, mirroring the
total order and integer-offset arithmetic of `pd.Period(freq="M")`. -/
def mkPeriod (y m : ℤ) : ℤ := 12 * y + (m - 1)

/-- The `.month` accessor of a `pd.Period` (values 1..12). -/
def monthOf (p : ℤ) : ℤ := p % 12 + 1

/-- The `.year` accessor of a `pd.Period`. -/
def yearOf (p : ℤ) : ℤ := p / 12

/-- Model of `_safe_div` from `model.py` (lines 25-27): `den.replace(0, nan)` followed
by `fillna(0.0)` yields `num / den` except that a zero denominator yields
exactly `0.0`.  The scalar `_safe_div` in `ytd.py` (lines 11-15) computes the
same function: `num / den if den != 0 else 0.0`. -/
def safeDiv (num den : ℚ) : ℚ := if den = 0 then 0 else num / den

/-- The `RateDefinition` dataclass from `config.py`: pool names, base key, cascade tier.
`cascade_order` is an `Int` as in the source (`int(v.get("cascade_order", 0))`);
the spec's data model constrains it to be `≥ 0`. -/
structure RateDefinition where
  pool : List String
  base : String
  cascade_order : ℤ
deriving DecidableEq

/-- One row of the `direct_by_project` DataFrame: `Period`, `Project`, and the
five direct-cost columns (`DirectLabor$`, `DirectLaborHrs`, `Subk`, `ODC`,
`Travel`). -/
structure DirectRow where
  period : ℤ
  project : String
  directLabor : ℚ
  directLaborHrs : ℚ
  subk : ℚ
  odc : ℚ
  travel : ℚ
deriving DecidableEq

/-- Model of `direct["TCI"] = direct[["DirectLabor$", "Subk", "ODC", "Travel"]].sum(axis=1)`
(`model.py` line 346). -/
def rowTCI (r : DirectRow) : ℚ := r.directLabor + r.subk + r.odc + r.travel

/-- Model of `_base_column_map.get(base, base)` (`model.py` lines 350-355):
`DL ↦ DirectLabor$`, `TL ↦ DirectLabor$`, `DLH ↦ DirectLaborHrs`, `TCI ↦ TCI`,
any other key maps to itself. -/
def baseColumn (b : String) : String :=
  if b = "DL" then "DirectLabor$"
  else if b = "TL" then "DirectLabor$"
  else if b = "DLH" then "DirectLaborHrs"
  else if b = "TCI" then "TCI"
  else b

/-- Column lookup `direct[c]` on a direct-cost row, for the columns the engine
reads.  An unknown column raises `KeyError` in pandas; the model returns `0`
there, and the theorems only instantiate known columns. -/
def columnValue (r : DirectRow) (c : String) : ℚ :=
  if c = "DirectLabor$" then r.directLabor
  else if c = "DirectLaborHrs" then r.directLaborHrs
  else if c = "Subk" then r.subk
  else if c = "ODC" then r.odc
  else if c = "Travel" then r.travel
  else if c = "TCI" then rowTCI r
  else 0

/-- Lookup `direct[base_col]` for a rate definition's base key: the raw (uncascaded)
base value of a project row. -/
def rawBaseValue (r : DirectRow) (b : String) : ℚ := columnValue r (baseColumn b)

/-- Model of `_bases_from_direct_costs` (`model.py` lines 30-37) applied to one period's
aggregated direct costs: `DL = TL = DirectLabor$`, `DLH = DirectLaborHrs`,
`TCI = DirectLabor$ + Subk + ODC + Travel`. -/
def basesFromDirect (dl dlh subk odc travel : ℚ) : String → ℚ := fun k =>
  if k = "DL" then dl
  else if k = "DLH" then dlh
  else if k = "TL" then dl
  else if k = "TCI" then dl + subk + odc + travel
  else 0

/-- The monthly rate of one rate definition at one period (`model.py` lines
338-343): the sum of the configured pool columns (`reindex` with
`fill_value=0.0`) divided by the configured base column through `_safe_div`. -/
def monthlyRate (pools bases : ℤ → String → ℚ) (rd : RateDefinition) (p : ℤ) : ℚ :=
  safeDiv ((rd.pool.map (fun n => pools p n)).sum) (bases p rd.base)

/-- One indirect dollar-impact column (`f"{rate_name}$"`) produced by the
cascade loop, together with the data the loop used to produce it: the rate
definition's base key and cascade tier, the merged monthly rate, and the
applied base `apply_to`. -/
structure ImpactCol where
  name : String
  base : String
  tier : ℤ
  rate : ℚ
  applied : ℚ
deriving DecidableEq

/-- The dollar value of an impact column:
`direct[dollar_col] = apply_to * direct.get(rate_name, 0.0)` (`model.py` line 383). -/
def ImpactCol.value (c : ImpactCol) : ℚ := c.applied * c.rate

/-- The body of the cascade loop of `compute_rates_and_impacts` (`model.py`
lines 364-385) for one rate definition on one project row, given the list
`acc` of dollar-impact columns already produced (the code's `cols_by_tier`
bookkeeping).  At `cascade_order == 0` the applied base `apply_to` is the raw
base column; at a later tier it is the raw base column plus the sum of every
already-produced column at a strictly lower tier (`prior_cols`; the code's
separate empty-`prior_cols` branch also yields the raw base, which the `+ 0`
sum makes explicit). -/
def mkImpact (pools bases : ℤ → String → ℚ) (row : DirectRow) (name : String)
    (rd : RateDefinition) (acc : List ImpactCol) : ImpactCol :=
  ⟨name, rd.base, rd.cascade_order, monthlyRate pools bases rd row.period,
    if rd.cascade_order = 0 then rawBaseValue row rd.base
    else rawBaseValue row rd.base +
      ((acc.filter (fun c => c.tier < rd.cascade_order)).map ImpactCol.value).sum⟩

/-- The cascade loop of `compute_rates_and_impacts` (`model.py` lines 364-385)
on a single project row: the rate definitions are processed in order,
each appending its dollar-impact column. -/
def applyCascade (pools bases : ℤ → String → ℚ) (row : DirectRow) :
    List (String × RateDefinition) → List ImpactCol → List ImpactCol
  | [], acc => acc
  | (name, rd) :: rest, acc =>
      applyCascade pools bases row rest (acc ++ [mkImpact pools bases row name rd acc])

/-- The tier comparison used by
`sorted(config.rates.items(), key=lambda x: x[1].cascade_order)` (`model.py`
line 358). -/
def tierLE (a b : String × RateDefinition) : Prop :=
  a.2.cascade_order ≤ b.2.cascade_order

instance : DecidableRel tierLE := fun a b => Int.decLe a.2.cascade_order b.2.cascade_order

instance : IsTotal (String × RateDefinition) tierLE :=
  ⟨fun a b => le_total a.2.cascade_order b.2.cascade_order⟩

instance : IsTrans (String × RateDefinition) tierLE :=
  ⟨fun _ _ _ h1 h2 => le_trans h1 h2⟩

/-- Python's `sorted` by `cascade_order` is a stable sort; it is modelled by
insertion sort on the same key (any stable sort produces the same list, and
the theorems below use only sortedness and permutation). -/
def sortByTier (cfg : List (String × RateDefinition)) : List (String × RateDefinition) :=
  List.insertionSort tierLE cfg

/-- The full set of dollar-impact columns produced for one project row by
`compute_rates_and_impacts`: the cascade loop run over the rate definitions
sorted ascending by cascade tier. -/
def impactCols (pools bases : ℤ → String → ℚ) (cfg : List (String × RateDefinition))
    (row : DirectRow) : List ImpactCol :=
  applyCascade pools bases row (sortByTier cfg) []

/-- Model of `direct["LoadedCost$"] = direct["TCI"] + direct[indirect_dollar_cols].sum(axis=1)`
(`model.py` line 387), for one project row. -/
def loadedCost (pools bases : ℤ → String → ℚ) (cfg : List (String × RateDefinition))
    (row : DirectRow) : ℚ :=
  rowTCI row + ((impactCols pools bases cfg row).map ImpactCol.value).sum

/-- The flat variant of a configuration: the same rate definitions all at
cascade tier 0. -/
def flattenTiers (cfg : List (String × RateDefinition)) : List (String × RateDefinition) :=
  cfg.map (fun nr => (nr.1, { nr.2 with cascade_order := 0 }))

/-! ### The canonical worked example (spec section 4.4, `test_model_cascade.py`) -/

/-- Pool table of the worked example: Fringe $25,000, Overhead $10,000,
G&A $22,500 in the single period. -/
def exPools : ℤ → String → ℚ := fun _ n =>
  if n = "Fringe" then 25000 else if n = "Overhead" then 10000
  else if n = "G&A" then 22500 else 0

/-- Base table of the worked example, derived from DirectLabor$ = 100,000 and
Subk = 50,000 by `_bases_from_direct_costs`. -/
def exBases : ℤ → String → ℚ := fun _ k => basesFromDirect 100000 0 50000 0 0 k

/-- The single project row of the worked example. -/
def exRow : DirectRow := ⟨0, "P-1", 100000, 0, 50000, 0, 0⟩

/-- Cascaded configuration: Fringe tier 0 on TL, Overhead tier 1 on DL,
G&A tier 2 on TCI. -/
def exCfg : List (String × RateDefinition) :=
  [("Fringe", ⟨["Fringe"], "TL", 0⟩),
   ("Overhead", ⟨["Overhead"], "DL", 1⟩),
   ("G&A", ⟨["G&A"], "TCI", 2⟩)]

/-- The same three rate definitions all at cascade tier 0. -/
def exCfgFlat : List (String × RateDefinition) :=
  [("Fringe", ⟨["Fringe"], "TL", 0⟩),
   ("Overhead", ⟨["Overhead"], "DL", 0⟩),
   ("G&A", ⟨["G&A"], "TCI", 0⟩)]

/-- C1: on the canonical worked example — one project with DirectLabor$ =
100,000 and Subk = 50,000, pools Fringe = 25,000 (tier 0, base TL),
Overhead = 10,000 (tier 1, base DL), G&A = 22,500 (tier 2, base TCI) —
`compute_rates_and_impacts` produces rates 0.25, 0.10, 0.15, dollar impacts
exactly 25,000 / 12,500 / 28,125 and `LoadedCost$` = 215,625; the same inputs
with all three rates at cascade tier 0 produce `LoadedCost$` = 207,500. -/
theorem worked_example_cascade :
    monthlyRate exPools exBases ⟨["Fringe"], "TL", 0⟩ 0 = 1/4
    ∧ monthlyRate exPools exBases ⟨["Overhead"], "DL", 1⟩ 0 = 1/10
    ∧ monthlyRate exPools exBases ⟨["G&A"], "TCI", 2⟩ 0 = 3/20
    ∧ (impactCols exPools exBases exCfg exRow).map ImpactCol.value = [25000, 12500, 28125]
    ∧ loadedCost exPools exBases exCfg exRow = 215625
    ∧ loadedCost exPools exBases exCfgFlat exRow = 207500 := by
  refine ⟨?_, ?_, ?_, ?_, ?_, ?_⟩ <;>
    norm_num +decide [monthlyRate, exPools, exBases, exRow, exCfg, exCfgFlat, basesFromDirect,
      safeDiv, impactCols, loadedCost, sortByTier, List.insertionSort, List.orderedInsert,
      tierLE, applyCascade, mkImpact, rawBaseValue, columnValue, baseColumn, rowTCI,
      ImpactCol.value]

/-! ### C2: the applied base of a cascaded rate -/

/-- The data of an impact column that is determined directly by the rate
definition that produced it (everything except the applied base). -/
def colKey (c : ImpactCol) : String × String × ℤ × ℚ := (c.name, c.base, c.tier, c.rate)

/-- The same data read off a configured rate definition. -/
def defKey (pools bases : ℤ → String → ℚ) (p : ℤ) (nr : String × RateDefinition) :
    String × String × ℤ × ℚ :=
  (nr.1, nr.2.base, nr.2.cascade_order, monthlyRate pools bases nr.2 p)

lemma applyCascade_structure (pools bases : ℤ → String → ℚ) (row : DirectRow) :
    ∀ (l : List (String × RateDefinition)) (acc : List ImpactCol),
      ∃ new, applyCascade pools bases row l acc = acc ++ new ∧
        new.map colKey = l.map (defKey pools bases row.period)
  | [], acc => ⟨[], by simp [applyCascade]⟩
  | (n, rd) :: rest, acc => by
      obtain ⟨new, h1, h2⟩ := applyCascade_structure pools bases row rest
        (acc ++ [mkImpact pools bases row n rd acc])
      refine ⟨mkImpact pools bases row n rd acc :: new, ?_, ?_⟩
      · simpa [applyCascade] using h1
      · simp [h2, colKey, defKey, mkImpact]

lemma tier_mem_of_colKey {pools bases : ℤ → String → ℚ} {p : ℤ}
    {new : List ImpactCol} {l : List (String × RateDefinition)}
    (h : new.map colKey = l.map (defKey pools bases p)) :
    ∀ c ∈ new, ∃ x ∈ l, c.tier = x.2.cascade_order := by
  intro c hc
  have : colKey c ∈ l.map (defKey pools bases p) := h ▸ List.mem_map_of_mem colKey hc
  obtain ⟨x, hx, hxe⟩ := List.mem_map.mp this
  exact ⟨x, hx, by simpa [colKey, defKey] using congrArg (fun t => t.2.2.1) hxe.symm⟩

lemma applyCascade_applied_spec (pools bases : ℤ → String → ℚ) (row : DirectRow) :
    ∀ (l : List (String × RateDefinition)) (acc : List ImpactCol),
      l.Pairwise tierLE →
      (∀ x ∈ l, 0 ≤ x.2.cascade_order) →
      (∀ a ∈ acc, 0 ≤ a.tier) →
      ∀ c ∈ applyCascade pools bases row l acc,
        c ∈ acc ∨
        c.applied = rawBaseValue row c.base +
          (((applyCascade pools bases row l acc).filter (fun d => d.tier < c.tier)).map
            ImpactCol.value).sum
  | [], acc => fun _ _ _ c hc => Or.inl (by simpa [applyCascade] using hc)
  | (n, rd) :: rest, acc => by
      intro hsorted htiers hacc c hc
      have hsrest : rest.Pairwise tierLE := hsorted.of_cons
      have hhead : ∀ x ∈ rest, rd.cascade_order ≤ x.2.cascade_order :=
        fun x hx => (List.pairwise_cons.mp hsorted).1 x hx
      have hT : 0 ≤ rd.cascade_order := htiers _ (List.mem_cons_self _ _)
      set e := mkImpact pools bases row n rd acc with he
      have hacc' : ∀ a ∈ acc ++ [e], 0 ≤ a.tier := by
        intro a ha
        rcases List.mem_append.mp ha with h | h
        · exact hacc a h
        · simp only [List.mem_singleton] at h
          subst h; simpa [he, mkImpact] using hT
      have hstep : applyCascade pools bases row ((n, rd) :: rest) acc =
          applyCascade pools bases row rest (acc ++ [e]) := by
        simp [applyCascade, he]
      obtain ⟨new, hnew, hkey⟩ :=
        applyCascade_structure pools bases row rest (acc ++ [e])
      have hnewtier : ∀ d ∈ new, rd.cascade_order ≤ d.tier := by
        intro d hd
        obtain ⟨x, hx, hxe⟩ := tier_mem_of_colKey hkey d hd
        exact hxe ▸ hhead x hx
      rw [hstep] at hc ⊢
      rcases applyCascade_applied_spec pools bases row rest (acc ++ [e]) hsrest
          (fun x hx => htiers x (List.mem_cons_of_mem _ hx)) hacc' c hc with hmem | heq
      · rcases List.mem_append.mp hmem with h | h
        · exact Or.inl h
        · -- c is the freshly appended column e
          simp only [List.mem_singleton] at h
          subst h
          right
          have hct : e.tier = rd.cascade_order := by simp [he, mkImpact]
          have hfilter :
              (applyCascade pools bases row rest (acc ++ [e])).filter
                  (fun d => d.tier < e.tier) =
                acc.filter (fun d => d.tier < e.tier) := by
            rw [hnew, List.filter_append, List.filter_append]
            have h1 : [e].filter (fun d => d.tier < e.tier) = [] := by
              simp
            have h2 : new.filter (fun d => d.tier < e.tier) = [] := by
              refine List.filter_eq_nil_iff.mpr fun d hd => ?_
              simpa [hct] using not_lt.mpr (hnewtier d hd)
            simp [h1, h2]
          rw [hfilter]
          by_cases h0 : rd.cascade_order = 0
          · have hemp : acc.filter (fun d => d.tier < (0:ℤ)) = [] := by
              refine List.filter_eq_nil_iff.mpr fun d hd => ?_
              simpa using not_lt.mpr (hacc d hd)
            simp [he, mkImpact, h0, hemp]
          · simp [he, mkImpact, h0, hct]
      · exact Or.inr heq

/-- C2: for every configuration with non-negative cascade tiers (the spec's
data model requires `cascade_tier ≥ 0`) and every projection row, the applied
base used for a rate definition at cascade tier T equals the raw base column
for its base key plus the sum of the dollar-impact columns of every rate
definition at a tier strictly below T — never the impact of a same-tier or
higher-tier rate — regardless of declaration order; and the produced columns
are exactly one per configured rate definition. -/
theorem cascaded_applied_base (pools bases : ℤ → String → ℚ) (row : DirectRow)
    (cfg : List (String × RateDefinition))
    (htier : ∀ nr ∈ cfg, 0 ≤ nr.2.cascade_order) :
    (∀ c ∈ impactCols pools bases cfg row,
      c.applied = rawBaseValue row c.base +
        (((impactCols pools bases cfg row).filter (fun d => d.tier < c.tier)).map
          ImpactCol.value).sum)
    ∧ ((impactCols pools bases cfg row).map (fun c => (c.name, c.tier))).Perm
        (cfg.map (fun nr => (nr.1, nr.2.cascade_order))) := by
  have hsorted : (sortByTier cfg).Pairwise tierLE :=
    List.sorted_insertionSort tierLE cfg
  have hperm : (sortByTier cfg).Perm cfg := List.perm_insertionSort tierLE cfg
  have htier' : ∀ x ∈ sortByTier cfg, 0 ≤ x.2.cascade_order :=
    fun x hx => htier x (hperm.mem_iff.mp hx)
  constructor
  · intro c hc
    rcases applyCascade_applied_spec pools bases row (sortByTier cfg) [] hsorted htier'
        (by simp) c hc with h | h
    · simp at h
    · exact h
  · obtain ⟨new, hnew, hkey⟩ := applyCascade_structure pools bases row (sortByTier cfg) []
    have hout : impactCols pools bases cfg row = new := by
      simpa [impactCols] using hnew
    have hmapped : (impactCols pools bases cfg row).map (fun c => (c.name, c.tier)) =
        (sortByTier cfg).map (fun nr => (nr.1, nr.2.cascade_order)) := by
      rw [hout]
      have := congrArg (List.map (fun t : String × String × ℤ × ℚ => (t.1, t.2.2.1))) hkey
      simpa [Function.comp, colKey, defKey] using this
    rw [hmapped]
    exact hperm.map _

/-- Concrete inputs for the C2 witness: two rate definitions at tiers 0 and 1. -/
def wPools : ℤ → String → ℚ := fun _ n => if n = "P1" then 5 else if n = "P2" then 6 else 0

/-- Concrete bases for the C2 witness. -/
def wBases : ℤ → String → ℚ := fun _ k => if k = "TL" then 100 else if k = "DL" then 100 else 0

/-- Concrete configuration for the C2 witness. -/
def wCfg : List (String × RateDefinition) :=
  [("R1", ⟨["P1"], "TL", 0⟩), ("R2", ⟨["P2"], "DL", 1⟩)]

/-- Concrete project row for the C2 witness. -/
def wRow : DirectRow := ⟨0, "X", 100, 0, 0, 0, 0⟩

/-- Witness for C2 at a concrete two-tier configuration: the tier-1 column's
applied base (105 = raw DL 100 plus the tier-0 impact 5) satisfies the
applied-base equation. -/
theorem cascaded_applied_base_witness :
    (⟨"R2", "DL", 1, 3/50, 105⟩ : ImpactCol).applied =
      rawBaseValue wRow (⟨"R2", "DL", 1, 3/50, 105⟩ : ImpactCol).base +
        (((impactCols wPools wBases wCfg wRow).filter
            (fun d => d.tier < (⟨"R2", "DL", 1, 3/50, 105⟩ : ImpactCol).tier)).map
          ImpactCol.value).sum := by
  have hcols : impactCols wPools wBases wCfg wRow =
      [⟨"R1", "TL", 0, 1/20, 100⟩, ⟨"R2", "DL", 1, 3/50, 105⟩] := by
    norm_num +decide [impactCols, sortByTier, List.insertionSort, List.orderedInsert, tierLE,
      applyCascade, mkImpact, monthlyRate, safeDiv, rawBaseValue, columnValue, baseColumn,
      rowTCI, wPools, wBases, wCfg, wRow, ImpactCol.value]
  exact (cascaded_applied_base wPools wBases wRow wCfg (by decide)).1
    ⟨"R2", "DL", 1, 3/50, 105⟩ (by rw [hcols]; simp)

/-! ### C4: cascaded loaded cost versus flat loaded cost -/

lemma safeDiv_nonneg {num den : ℚ} (hn : 0 ≤ num) (hd : 0 ≤ den) : 0 ≤ safeDiv num den := by
  unfold safeDiv
  split
  · exact le_refl 0
  · exact div_nonneg hn hd

lemma monthlyRate_nonneg (pools bases : ℤ → String → ℚ) (rd : RateDefinition) (p : ℤ)
    (hp : ∀ q n, 0 ≤ pools q n) (hb : ∀ q k, 0 ≤ bases q k) :
    0 ≤ monthlyRate pools bases rd p := by
  refine safeDiv_nonneg (List.sum_nonneg ?_) (hb p rd.base)
  intro x hx
  obtain ⟨n, _, rfl⟩ := List.mem_map.mp hx
  exact hp p n

lemma rawBaseValue_nonneg (row : DirectRow) (b : String)
    (hdl : 0 ≤ row.directLabor) (hdlh : 0 ≤ row.directLaborHrs) (hs : 0 ≤ row.subk)
    (ho : 0 ≤ row.odc) (ht : 0 ≤ row.travel) : 0 ≤ rawBaseValue row b := by
  unfold rawBaseValue columnValue rowTCI
  repeat' split
  all_goals first
    | exact hdl
    | exact hdlh
    | exact hs
    | exact ho
    | exact ht
    | positivity

lemma applyCascade_value_ge (pools bases : ℤ → String → ℚ) (row : DirectRow)
    (hp : ∀ q n, 0 ≤ pools q n) (hb : ∀ q k, 0 ≤ bases q k)
    (hdl : 0 ≤ row.directLabor) (hdlh : 0 ≤ row.directLaborHrs) (hs : 0 ≤ row.subk)
    (ho : 0 ≤ row.odc) (ht : 0 ≤ row.travel) :
    ∀ (l : List (String × RateDefinition)) (acc : List ImpactCol),
      (∀ a ∈ acc, 0 ≤ ImpactCol.value a) →
      ∀ c ∈ applyCascade pools bases row l acc,
        c ∈ acc ∨
        (0 ≤ c.rate ∧ rawBaseValue row c.base ≤ c.applied ∧ 0 ≤ ImpactCol.value c)
  | [], acc => fun _ c hc => Or.inl (by simpa [applyCascade] using hc)
  | (n, rd) :: rest, acc => by
      intro hacc c hc
      set e := mkImpact pools bases row n rd acc with he
      have hraw : 0 ≤ rawBaseValue row rd.base :=
        rawBaseValue_nonneg row rd.base hdl hdlh hs ho ht
      have hrate : 0 ≤ e.rate := by
        simpa [he, mkImpact] using monthlyRate_nonneg pools bases rd row.period hp hb
      have happlied : rawBaseValue row e.base ≤ e.applied := by
        simp only [he, mkImpact]
        split
        · exact le_refl _
        · refine le_add_of_nonneg_right (List.sum_nonneg ?_)
          intro x hx
          obtain ⟨d, hd, rfl⟩ := List.mem_map.mp hx
          exact hacc d (List.mem_of_mem_filter hd)
      have hval : 0 ≤ ImpactCol.value e :=
        mul_nonneg (le_trans hraw (by simpa [he, mkImpact] using happlied)) hrate
      have hstep : applyCascade pools bases row ((n, rd) :: rest) acc =
          applyCascade pools bases row rest (acc ++ [e]) := by
        simp [applyCascade, he]
      rw [hstep] at hc
      have hacc' : ∀ a ∈ acc ++ [e], 0 ≤ ImpactCol.value a := by
        intro a ha
        rcases List.mem_append.mp ha with h | h
        · exact hacc a h
        · simp only [List.mem_singleton] at h
          exact h ▸ hval
      rcases applyCascade_value_ge pools bases row hp hb hdl hdlh hs ho ht rest
          (acc ++ [e]) hacc' c hc with hmem | hgood
      · rcases List.mem_append.mp hmem with h | h
        · exact Or.inl h
        · simp only [List.mem_singleton] at h
          exact Or.inr (h ▸ ⟨hrate, happlied, hval⟩)
      · exact Or.inr hgood

lemma applyCascade_flat (pools bases : ℤ → String → ℚ) (row : DirectRow) :
    ∀ (l : List (String × RateDefinition)) (acc : List ImpactCol),
      (∀ x ∈ l, x.2.cascade_order = 0) →
      ∀ c ∈ applyCascade pools bases row l acc,
        c ∈ acc ∨ c.applied = rawBaseValue row c.base
  | [], acc => fun _ c hc => Or.inl (by simpa [applyCascade] using hc)
  | (n, rd) :: rest, acc => by
      intro h0 c hc
      set e := mkImpact pools bases row n rd acc with he
      have hstep : applyCascade pools bases row ((n, rd) :: rest) acc =
          applyCascade pools bases row rest (acc ++ [e]) := by
        simp [applyCascade, he]
      rw [hstep] at hc
      rcases applyCascade_flat pools bases row rest (acc ++ [e])
          (fun x hx => h0 x (List.mem_cons_of_mem _ hx)) c hc with hmem | hgood
      · rcases List.mem_append.mp hmem with h | h
        · exact Or.inl h
        · simp only [List.mem_singleton] at h
          refine Or.inr ?_
          have : rd.cascade_order = 0 := h0 _ (List.mem_cons_self _ _)
          simp [h, he, mkImpact, this]
      · exact Or.inr hgood

lemma impactCols_key_sum (pools bases : ℤ → String → ℚ) (row : DirectRow)
    (cfg : List (String × RateDefinition)) (f : String × String × ℤ × ℚ → ℚ) :
    ((impactCols pools bases cfg row).map (fun c => f (colKey c))).sum =
      (cfg.map (fun nr => f (defKey pools bases row.period nr))).sum := by
  obtain ⟨new, hnew, hkey⟩ := applyCascade_structure pools bases row (sortByTier cfg) []
  have hout : impactCols pools bases cfg row = new := by simpa [impactCols] using hnew
  rw [hout]
  have hmaps : new.map (fun c => f (colKey c)) =
      (sortByTier cfg).map (fun nr => f (defKey pools bases row.period nr)) := by
    have := congrArg (List.map f) hkey
    simpa [List.map_map, Function.comp] using this
  rw [hmaps]
  exact (((List.perm_insertionSort tierLE cfg)).map _).sum_eq

/-- C4 (amended): the loaded cost under a cascaded configuration is at least
the loaded cost under the flat (all-tier-0) configuration of the same rate
definitions, whenever all pool values, all base values, and all of the
project row's direct-cost components are non-negative.  (The claim's
hypothesis of non-negative pools alone is not sufficient: see the
counterexample.) -/
theorem flat_le_cascaded (pools bases : ℤ → String → ℚ)
    (cfg : List (String × RateDefinition)) (row : DirectRow)
    (hp : ∀ q n, 0 ≤ pools q n) (hb : ∀ q k, 0 ≤ bases q k)
    (hdl : 0 ≤ row.directLabor) (hdlh : 0 ≤ row.directLaborHrs) (hs : 0 ≤ row.subk)
    (ho : 0 ≤ row.odc) (ht : 0 ≤ row.travel) :
    loadedCost pools bases (flattenTiers cfg) row ≤ loadedCost pools bases cfg row := by
  unfold loadedCost
  refine add_le_add_left ?_ (rowTCI row)
  -- abbreviate the per-definition flat dollar impact
  set f : String × String × ℤ × ℚ → ℚ := fun t => rawBaseValue row t.2.1 * t.2.2.2 with hf
  have hflat : ((impactCols pools bases (flattenTiers cfg) row).map ImpactCol.value).sum =
      (cfg.map (fun nr => f (defKey pools bases row.period nr))).sum := by
    have hpt : ∀ c ∈ impactCols pools bases (flattenTiers cfg) row,
        ImpactCol.value c = f (colKey c) := by
      intro c hc
      have h0 : ∀ x ∈ sortByTier (flattenTiers cfg), x.2.cascade_order = 0 := by
        intro x hx
        have hx' : x ∈ flattenTiers cfg :=
          (List.perm_insertionSort tierLE (flattenTiers cfg)).mem_iff.mp hx
        obtain ⟨nr, _, rfl⟩ := List.mem_map.mp hx'
        rfl
      rcases applyCascade_flat pools bases row (sortByTier (flattenTiers cfg)) [] h0 c hc with
        h | h
      · simp at h
      · simp [ImpactCol.value, hf, colKey, h, mul_comm]
    calc ((impactCols pools bases (flattenTiers cfg) row).map ImpactCol.value).sum
        = ((impactCols pools bases (flattenTiers cfg) row).map (fun c => f (colKey c))).sum := by
          exact congrArg List.sum (List.map_congr_left hpt)
      _ = ((flattenTiers cfg).map (fun nr => f (defKey pools bases row.period nr))).sum :=
          impactCols_key_sum pools bases row (flattenTiers cfg) f
      _ = (cfg.map (fun nr => f (defKey pools bases row.period nr))).sum := by
          unfold flattenTiers
          rw [List.map_map]
          rfl
  have hcasc : (cfg.map (fun nr => f (defKey pools bases row.period nr))).sum ≤
      ((impactCols pools bases cfg row).map ImpactCol.value).sum := by
    rw [← impactCols_key_sum pools bases row cfg f]
    refine List.sum_le_sum ?_
    intro c hc
    rcases applyCascade_value_ge pools bases row hp hb hdl hdlh hs ho ht (sortByTier cfg) []
        (by simp) c hc with h | h
    · simp at h
    · obtain ⟨hrate, happ, _⟩ := h
      calc f (colKey c) = rawBaseValue row c.base * c.rate := rfl
        _ ≤ c.applied * c.rate := mul_le_mul_of_nonneg_right happ hrate
        _ = ImpactCol.value c := rfl
  exact hflat ▸ hcasc

/-- Pools for the C4 counterexample: every pool value is 10 (non-negative). -/
def c4Pools : ℤ → String → ℚ := fun _ _ => 10

/-- Bases for the C4 counterexample: a negative direct-labor base. -/
def c4Bases : ℤ → String → ℚ := fun _ k =>
  if k = "TL" then -100 else if k = "DL" then -100 else 0

/-- Project row for the C4 counterexample: DirectLabor$ = -100 (a credit). -/
def c4Row : DirectRow := ⟨0, "X", -100, 0, 0, 0, 0⟩

/-- Cascaded configuration for the C4 counterexample. -/
def c4Cfg : List (String × RateDefinition) :=
  [("R1", ⟨["P1"], "TL", 0⟩), ("R2", ⟨["P2"], "DL", 1⟩)]

/-- Counterexample to C4 as stated: all pool values are non-negative (both
pools are 10), yet with a negative direct-labor base the cascaded loaded cost
(-81) is strictly below the flat loaded cost (-80). -/
theorem flat_le_cascaded_cex :
    loadedCost c4Pools c4Bases c4Cfg c4Row <
      loadedCost c4Pools c4Bases (flattenTiers c4Cfg) c4Row := by
  norm_num +decide [loadedCost, impactCols, sortByTier, List.insertionSort, List.orderedInsert,
    tierLE, applyCascade, mkImpact, monthlyRate, safeDiv, rawBaseValue, columnValue, baseColumn,
    rowTCI, c4Pools, c4Bases, c4Cfg, c4Row, ImpactCol.value, flattenTiers]

/-- Witness for the amended C4 on the worked example's all-non-negative data. -/
theorem flat_le_cascaded_witness :
    loadedCost exPools exBases (flattenTiers exCfg) exRow ≤
      loadedCost exPools exBases exCfg exRow := by
  refine flat_le_cascaded exPools exBases exCfg exRow ?_ ?_ ?_ ?_ ?_ ?_ ?_
  · intro q n
    unfold exPools
    repeat' split
    all_goals norm_num
  · intro q k
    unfold exBases basesFromDirect
    repeat' split
    all_goals norm_num
  all_goals norm_num [exRow]

/-! ### YTD engine (`ytd.py`) -/

/-- The fiscal-year start for a period (`ytd.py` lines 47-51): the period with
the fiscal-year-start month, in the same year when the period's month is at or
past it, in the previous year otherwise. -/
def fyBegin (fyStartMonth : ℤ) (p : ℤ) : ℤ :=
  if fyStartMonth ≤ monthOf p then mkPeriod (yearOf p) fyStartMonth
  else mkPeriod (yearOf p - 1) fyStartMonth

/-- The cumulative window of `compute_ytd_rates` (`ytd.py` line 54): the index
periods from the fiscal-year start through the current period inclusive. -/
def ytdWindow (index : List ℤ) (fyStartMonth : ℤ) (p : ℤ) : List ℤ :=
  index.filter (fun q => fyBegin fyStartMonth p ≤ q ∧ q ≤ p)

/-- The YTD rate of `compute_ytd_rates` (`ytd.py` lines 59-64): the sum of the
pool columns over the window divided by the sum of the base column over the
window, through `_safe_div`. -/
def ytdRate (pools bases : ℤ → String → ℚ) (index : List ℤ) (rd : RateDefinition)
    (fyStart p : ℤ) : ℚ :=
  safeDiv
    (((ytdWindow index (monthOf fyStart) p).map (fun q => (rd.pool.map (pools q)).sum)).sum)
    (((ytdWindow index (monthOf fyStart) p).map (fun q => bases q rd.base)).sum)

/-- C3: whenever the base total is zero, the computed rate — the monthly rate
of `compute_rates_and_impacts` and the cumulative rate of `compute_ytd_rates`
— is exactly 0.  In this exact-rational embedding both rates are total
functions, so no NaN, infinity, or raised error can occur; `_safe_div` maps a
zero denominator to exactly 0. -/
theorem zero_base_zero_rate (pools bases : ℤ → String → ℚ) (index : List ℤ)
    (rd : RateDefinition) (fyStart p : ℤ) :
    (bases p rd.base = 0 → monthlyRate pools bases rd p = 0)
    ∧ ((((ytdWindow index (monthOf fyStart) p).map (fun q => bases q rd.base)).sum = 0) →
        ytdRate pools bases index rd fyStart p = 0) := by
  constructor
  · intro h
    simp [monthlyRate, h, safeDiv]
  · intro h
    simp [ytdRate, h, safeDiv]

/-- A base table that is identically zero, for the C3 witness. -/
def zeroBases : ℤ → String → ℚ := fun _ _ => 0

/-- Witness for C3: with an identically-zero base table the Fringe monthly
rate and YTD rate at a concrete period are exactly 0. -/
theorem zero_base_zero_rate_witness :
    monthlyRate exPools zeroBases ⟨["Fringe"], "TL", 0⟩ 0 = 0
    ∧ ytdRate exPools zeroBases [0] ⟨["Fringe"], "TL", 0⟩ 0 0 = 0 := by
  constructor
  · exact (zero_base_zero_rate exPools zeroBases [0] ⟨["Fringe"], "TL", 0⟩ 0 0).1 rfl
  · refine (zero_base_zero_rate exPools zeroBases [0] ⟨["Fringe"], "TL", 0⟩ 0 0).2 ?_
    norm_num +decide [ytdWindow, fyBegin, monthOf, yearOf, mkPeriod, zeroBases]

lemma list_sum_map_const_of_eq {l : List ℤ} {p : ℤ} (h : ∀ q ∈ l, q = p) (f : ℤ → ℚ) :
    (l.map f).sum = l.length * f p := by
  induction l with
  | nil => simp
  | cons a t ih =>
      have ha : a = p := h a (by simp)
      have ht : ∀ q ∈ t, q = p := fun q hq => h q (by simp [hq])
      rw [List.map_cons, List.sum_cons, ih ht, ha, List.length_cons]
      push_cast
      ring

lemma safeDiv_mul_left (n a b : ℚ) (hn : n ≠ 0) : safeDiv (n * a) (n * b) = safeDiv a b := by
  unfold safeDiv
  by_cases hb : b = 0
  · simp [hb]
  · have hnb : n * b ≠ 0 := mul_ne_zero hn hb
    rw [if_neg hnb, if_neg hb, mul_div_mul_left a b hn]

lemma fyBegin_self {p fy : ℤ} (h : monthOf p = monthOf fy) : fyBegin (monthOf fy) p = p := by
  unfold fyBegin
  rw [if_pos (le_of_eq h.symm)]
  rw [← h]
  unfold mkPeriod yearOf monthOf
  omega

/-- C8: for every rate definition, the YTD rate at the first period of a
fiscal year (a period whose month equals the fiscal-year-start month) equals
the monthly rate at that same period: the year-to-date window collapses to
that single period, and sum-of-pools over sum-of-base over a one-period
window is the monthly ratio. -/
theorem ytd_first_period_equals_monthly (pools bases : ℤ → String → ℚ) (index : List ℤ)
    (rd : RateDefinition) (fyStart p : ℤ)
    (hm : monthOf p = monthOf fyStart) (hp : p ∈ index) :
    ytdRate pools bases index rd fyStart p = monthlyRate pools bases rd p := by
  have hw : ytdWindow index (monthOf fyStart) p = index.filter (fun q => p ≤ q ∧ q ≤ p) := by
    unfold ytdWindow
    rw [fyBegin_self hm]
  have hall : ∀ q ∈ ytdWindow index (monthOf fyStart) p, q = p := by
    intro q hq
    rw [hw] at hq
    have h2 := (List.mem_filter.mp hq).2
    simp only [decide_eq_true_eq] at h2
    exact le_antisymm h2.2 h2.1
  have hne : ytdWindow index (monthOf fyStart) p ≠ [] := by
    rw [hw]
    intro hnil
    have hmem : p ∈ index.filter (fun q => p ≤ q ∧ q ≤ p) :=
      List.mem_filter.mpr ⟨hp, by simp⟩
    rw [hnil] at hmem
    simp at hmem
  have hlen : ((ytdWindow index (monthOf fyStart) p).length : ℚ) ≠ 0 := by
    simpa [List.length_eq_zero] using hne
  unfold ytdRate
  rw [list_sum_map_const_of_eq hall, list_sum_map_const_of_eq hall,
    safeDiv_mul_left _ _ _ hlen]
  rfl

/-- Witness for C8 at a concrete one-period index whose period is the
fiscal-year start itself. -/
theorem ytd_first_period_equals_monthly_witness :
    ytdRate exPools exBases [0] ⟨["Fringe"], "TL", 0⟩ 0 0 =
      monthlyRate exPools exBases ⟨["Fringe"], "TL", 0⟩ 0 :=
  ytd_first_period_equals_monthly exPools exBases [0] ⟨["Fringe"], "TL", 0⟩ 0 0 rfl
    (by simp)

/-! ### Baseline projection (`model.py` `build_baseline_projection`) -/

/-- Model of `df.tail(k)`: the last `k` rows (all rows when there are fewer). -/
def tailList {α : Type} (l : List α) (k : ℕ) : List α := l.drop (l.length - k)

/-- The run-rate of one pool or base column
(`actual.tail(run_rate_months).mean()`, `model.py` lines 144-145): the
arithmetic mean of the column over the trailing `k` actual periods. -/
def runRateMean (idx : List ℤ) (vals : ℤ → ℚ) (k : ℕ) : ℚ :=
  ((tailList idx k).map vals).sum / ((tailList idx k).length : ℚ)

/-- The value of one pool or base column of the baseline projection
(`model.py` lines 141-151 with the final `fillna(0.0)`): actual periods keep
their actual value (a period missing from the actual index is reindexed to
NaN and then filled with 0), and every period strictly after the last actual
period is set to the constant run-rate. -/
def baselineValue (idx : List ℤ) (vals : ℤ → ℚ) (k : ℕ) (lastActual p : ℤ) : ℚ :=
  if lastActual < p then runRateMean idx vals k
  else if p ∈ idx then vals p else 0

/-- C6: with `run_rate_months = 3` and actual index `pre ++ [a, b, c]`
(so `c` is the last actual period), every forecast period's column value
equals the unweighted mean of the values at the trailing 3 actual periods
`a`, `b`, `c`, and the value is identical across all forecast periods (a flat
line).  This holds independently for every pool column and base column, since
each column is extrapolated by its own `runRateMean`. -/
theorem run_rate_flat (pre : List ℤ) (a b c : ℤ) (vals : ℤ → ℚ) (p q : ℤ)
    (hp : c < p) (hq : c < q) :
    baselineValue (pre ++ [a, b, c]) vals 3 c p = (vals a + vals b + vals c) / 3
    ∧ baselineValue (pre ++ [a, b, c]) vals 3 c p =
        baselineValue (pre ++ [a, b, c]) vals 3 c q := by
  have htail : tailList (pre ++ [a, b, c]) 3 = [a, b, c] := by
    unfold tailList
    have hlen : (pre ++ [a, b, c]).length - 3 = pre.length := by simp
    rw [hlen, List.drop_left]
  have hrr : runRateMean (pre ++ [a, b, c]) vals 3 = (vals a + vals b + vals c) / 3 := by
    unfold runRateMean
    rw [htail]
    norm_num
    ring
  refine ⟨?_, ?_⟩
  · rw [baselineValue, if_pos hp, hrr]
  · rw [baselineValue, if_pos hp, baselineValue, if_pos hq]

/-- Witness for C6 at a concrete four-period actual index. -/
theorem run_rate_flat_witness :
    baselineValue [0, 1, 2, 3] (fun z => (z : ℚ)) 3 3 4 = ((1 : ℚ) + 2 + 3) / 3
    ∧ baselineValue [0, 1, 2, 3] (fun z => (z : ℚ)) 3 3 4 =
        baselineValue [0, 1, 2, 3] (fun z => (z : ℚ)) 3 3 5 := by
  have h := run_rate_flat [0] 1 2 3 (fun z => (z : ℚ)) 4 5 (by norm_num) (by norm_num)
  simpa using h

/-! ### Per-project direct-cost run-rate (`model.py` `_project_direct_costs_run_rate`) -/

/-- Model of `recent = direct[direct["Period"] > (last_actual - (run_rate_months - 1))]`
(`model.py` line 187).  Note the window: the periods strictly after
`last_actual - (run_rate_months - 1)`, which for `run_rate_months = k` are the
trailing `k - 1` actual periods — one fewer than the `tail(k)` window used
for pools and bases. -/
def recentRows (rows : List DirectRow) (lastActual : ℤ) (k : ℕ) : List DirectRow :=
  rows.filter (fun r => lastActual - ((k : ℤ) - 1) < r.period)

/-- Model of `rr.index`: the projects having at least one row in the recent window
(the index of `recent.groupby("Project").mean()`, `model.py` line 188).
The groupby sorts its keys; only membership is used below, so the order of
this list is irrelevant. -/
def windowProjects (rows : List DirectRow) (lastActual : ℤ) (k : ℕ) : List String :=
  ((recentRows rows lastActual k).map (fun r => r.project)).dedup

/-- The groupby-mean of one direct-cost column for one project over the
recent window (`model.py` line 188): the sum over that project's recent rows
divided by their count. -/
def projMean (rows : List DirectRow) (lastActual : ℤ) (k : ℕ) (proj : String)
    (sel : DirectRow → ℚ) : ℚ :=
  (((recentRows rows lastActual k).filter (fun r => r.project = proj)).map sel).sum /
    ((((recentRows rows lastActual k).filter (fun r => r.project = proj)).length : ℚ))

/-- The output of `_project_direct_costs_run_rate` (`model.py` lines 190-195)
at key `(p, proj)`, as a keyed lookup into the reindexed frame: the full index
is `periods × rr.index`, an existing `(Period, Project)` row keeps its values,
a missing cell is filled with the project's window mean, and a `(p, proj)` key
outside `periods × rr.index` has no output row at all. -/
def projForecastRow (rows : List DirectRow) (periods : List ℤ) (lastActual : ℤ) (k : ℕ)
    (p : ℤ) (proj : String) : Option DirectRow :=
  if p ∈ periods ∧ proj ∈ windowProjects rows lastActual k then
    some (match rows.find? (fun r => r.period = p ∧ r.project = proj) with
      | some r => r
      | none =>
          ⟨p, proj, projMean rows lastActual k proj (fun r => r.directLabor),
            projMean rows lastActual k proj (fun r => r.directLaborHrs),
            projMean rows lastActual k proj (fun r => r.subk),
            projMean rows lastActual k proj (fun r => r.odc),
            projMean rows lastActual k proj (fun r => r.travel)⟩)
  else none

/-- C7 (amended): a forecast period's per-project direct costs are filled with
that project's own mean over the code's recent window — the periods strictly
after `last_actual - (run_rate_months - 1)`, i.e. the trailing
`run_rate_months - 1` actual periods, one month short of the pools/bases
window — and a project with no rows in that window is dropped from the output
entirely, its actual-period rows included (not preserved). -/
theorem project_run_rate (rows : List DirectRow) (periods : List ℤ) (lastActual : ℤ)
    (k : ℕ) (p : ℤ) (proj : String)
    (hactual : ∀ r ∈ rows, r.period ≤ lastActual) :
    (p ∈ periods → lastActual < p → proj ∈ windowProjects rows lastActual k →
      projForecastRow rows periods lastActual k p proj =
        some ⟨p, proj, projMean rows lastActual k proj (fun r => r.directLabor),
          projMean rows lastActual k proj (fun r => r.directLaborHrs),
          projMean rows lastActual k proj (fun r => r.subk),
          projMean rows lastActual k proj (fun r => r.odc),
          projMean rows lastActual k proj (fun r => r.travel)⟩)
    ∧ (proj ∉ windowProjects rows lastActual k →
        projForecastRow rows periods lastActual k p proj = none) := by
  constructor
  · intro hp hlast hw
    have hfind : rows.find? (fun r => r.period = p ∧ r.project = proj) = none := by
      rw [List.find?_eq_none]
      intro r hr
      simp only [decide_eq_true_eq, not_and]
      intro hper
      exact absurd hper (by have := hactual r hr; omega)
    unfold projForecastRow
    rw [if_pos ⟨hp, hw⟩, hfind]
  · intro hw
    unfold projForecastRow
    exact if_neg (fun h => hw h.2)

/-- Rows for the C7 counterexample: project A has actuals 0, 0, 30 in periods
0, 1, 2; project B has a single actual row in period 0 only. -/
def c7Rows : List DirectRow :=
  [⟨0, "A", 0, 0, 0, 0, 0⟩, ⟨1, "A", 0, 0, 0, 0, 0⟩, ⟨2, "A", 30, 0, 0, 0, 0⟩,
   ⟨0, "B", 5, 0, 0, 0, 0⟩]

/-- Period index for the C7 counterexample (last actual 2, one forecast month). -/
def c7Periods : List ℤ := [0, 1, 2, 3]

/-- Counterexample to C7 as stated: with `run_rate_months = 3` and project A's
DirectLabor$ actuals 0, 0, 30 in periods 0..2, the code fills forecast period
3 with 15 — the mean over the 2-period window {1, 2} — not the mean 10 over
the 3-period window used for pools and bases; and project B, outside the
window, loses even its actual row at period 0. -/
theorem project_run_rate_cex :
    ((projForecastRow c7Rows c7Periods 2 3 3 "A").map (fun r => r.directLabor) =
      some 15)
    ∧ ((0 : ℚ) + 0 + 30) / 3 = 10
    ∧ (15 : ℚ) ≠ 10
    ∧ projForecastRow c7Rows c7Periods 2 3 0 "B" = none := by
  refine ⟨?_, by norm_num, by norm_num, ?_⟩
  · norm_num +decide [projForecastRow, windowProjects, recentRows, projMean, c7Rows, c7Periods,
      List.dedup, List.find?]
  · norm_num +decide [projForecastRow, windowProjects, recentRows, c7Rows, c7Periods,
      List.dedup]

/-- Witness for the amended C7: project A's forecast row at period 3 is filled
with its window means, and project C (no rows at all, hence not in the
window) has no output row. -/
theorem project_run_rate_witness :
    projForecastRow c7Rows c7Periods 2 3 3 "A" =
      some ⟨3, "A", projMean c7Rows 2 3 "A" (fun r => r.directLabor),
        projMean c7Rows 2 3 "A" (fun r => r.directLaborHrs),
        projMean c7Rows 2 3 "A" (fun r => r.subk),
        projMean c7Rows 2 3 "A" (fun r => r.odc),
        projMean c7Rows 2 3 "A" (fun r => r.travel)⟩
    ∧ projForecastRow c7Rows c7Periods 2 3 0 "C" = none := by
  constructor
  · exact (project_run_rate c7Rows c7Periods 2 3 3 "A" (by decide)).1
      (by decide) (by decide) (by decide)
  · exact (project_run_rate c7Rows c7Periods 2 3 0 "C" (by decide)).2 (by decide)

/-! ### Scenario events (`model.py` `apply_scenario_events`)

The pools DataFrame is modelled here as an ordered association list of
columns (`pool name × (period → value)`), so that the creation of a new pool
column (`pools[pool_name] = 0.0`) is observable; the projection's period index
is carried separately and is unchanged by the function (only columns are
added). -/

/-- The pools DataFrame: an ordered list of named columns. -/
abbrev PoolFrame := List (String × (ℤ → ℚ))

/-- Lookup `pools[c][p]`: value of column `c` at period `p` — the first column with
that name (column names are unique in a DataFrame), 0 when the column is
absent (the theorems state column absence separately via `hasCol`). -/
def colValue : PoolFrame → String → ℤ → ℚ
  | [], _, _ => 0
  | x :: t, c, p => if x.1 = c then x.2 p else colValue t c p

/-- Model of `pool_name in pools.columns`. -/
def hasCol (tbl : PoolFrame) (c : String) : Bool := tbl.any (fun x => x.1 = c)

/-- One scenario event row, after the input boundary: the scenario name
(`fillna("Base")` applied), the effective period, the optional project with
its five fixed direct-cost deltas, and the `DeltaPool<Name>` columns decoded
to `pool name ↦ delta` (the legacy `GA ↦ G&A` alias already applied). -/
structure ScenarioEvent where
  scenario : String
  effectivePeriod : ℤ
  project : String
  deltaDirectLabor : ℚ
  deltaDirectLaborHrs : ℚ
  deltaSubk : ℚ
  deltaODC : ℚ
  deltaTravel : ℚ
  poolDeltas : List (String × ℚ)

/-- One pool-delta application (`model.py` lines 254-257): create the column
with zeros if absent (`pools[pool_name] = 0.0`), then add the delta to every
index period at or after the effective period
(`pools.loc[applicable_periods, pool_name] += delta`). -/
def addToCol (index : List ℤ) (eff : ℤ) (d : ℚ) (tbl : PoolFrame) (pn : String) : PoolFrame :=
  (if hasCol tbl pn then tbl else tbl ++ [(pn, fun _ => 0)]).map
    (fun x => if x.1 = pn then
        (x.1, fun p => if eff ≤ p ∧ p ∈ index then x.2 p + d else x.2 p)
      else x)

/-- The pools part of processing one event (`model.py` lines 248-257): skip
the event when no index period is at or after its effective period
(`continue`), otherwise apply each of its pool deltas. -/
def applyEventPools (index : List ℤ) (tbl : PoolFrame) (ev : ScenarioEvent) : PoolFrame :=
  if (index.filter (fun p => ev.effectivePeriod ≤ p)).isEmpty then tbl
  else ev.poolDeltas.foldl (fun t pd => addToCol index ev.effectivePeriod pd.2 t pd.1) tbl

/-- The pools component of `apply_scenario_events` (`model.py` lines 198-257):
unchanged when the event table is empty or no event matches the scenario,
otherwise the matching events applied in order. -/
def applyScenarioEventsPools (index : List ℤ) (tbl : PoolFrame) (events : List ScenarioEvent)
    (scenario : String) : PoolFrame :=
  if events.isEmpty then tbl
  else if (events.filter (fun e => e.scenario = scenario)).isEmpty then tbl
  else (events.filter (fun e => e.scenario = scenario)).foldl (applyEventPools index) tbl

lemma colValue_of_hasCol_false {c : String} :
    ∀ {tbl : PoolFrame}, hasCol tbl c = false → ∀ p : ℤ, colValue tbl c p = 0
  | [], _, _ => rfl
  | x :: t, h, p => by
      simp only [hasCol, List.any_cons, Bool.or_eq_false_iff] at h
      rw [colValue, if_neg (by simpa using h.1)]
      exact colValue_of_hasCol_false (by simpa [hasCol] using h.2) p

lemma colValue_append_of_hasCol_false {c : String} :
    ∀ {tbl : PoolFrame}, hasCol tbl c = false → ∀ (l2 : PoolFrame) (p : ℤ),
      colValue (tbl ++ l2) c p = colValue l2 c p
  | [], _, _, _ => rfl
  | x :: t, h, l2, p => by
      simp only [hasCol, List.any_cons, Bool.or_eq_false_iff] at h
      rw [List.cons_append, colValue, if_neg (by simpa using h.1)]
      exact colValue_append_of_hasCol_false (by simpa [hasCol] using h.2) l2 p

lemma colValue_append_ne {c : String} {y : String × (ℤ → ℚ)} (hy : y.1 ≠ c) :
    ∀ (tbl : PoolFrame) (p : ℤ), colValue (tbl ++ [y]) c p = colValue tbl c p
  | [], p => by
      simp [colValue, hy]
  | x :: t, p => by
      rw [List.cons_append, colValue, colValue]
      by_cases h : x.1 = c
      · rw [if_pos h, if_pos h]
      · rw [if_neg h, if_neg h]
        exact colValue_append_ne hy t p

/-- The column update applied by `addToCol` to every column (only the named
column changes). -/
def updCol (index : List ℤ) (eff : ℤ) (d : ℚ) (pn : String) (x : String × (ℤ → ℚ)) :
    String × (ℤ → ℚ) :=
  if x.1 = pn then (x.1, fun p => if eff ≤ p ∧ p ∈ index then x.2 p + d else x.2 p) else x

lemma updCol_fst (index : List ℤ) (eff : ℤ) (d : ℚ) (pn : String)
    (x : String × (ℤ → ℚ)) : (updCol index eff d pn x).1 = x.1 := by
  unfold updCol
  by_cases h : x.1 = pn <;> simp [h]

lemma colValue_map_updCol (index : List ℤ) (eff : ℤ) (d : ℚ) (pn c : String) (p : ℤ) :
    ∀ tbl : PoolFrame,
      colValue (tbl.map (updCol index eff d pn)) c p =
        if c = pn ∧ (eff ≤ p ∧ p ∈ index) ∧ hasCol tbl c = true then colValue tbl c p + d
        else colValue tbl c p
  | [] => by simp [hasCol, colValue]
  | x :: t => by
      rw [List.map_cons, colValue, updCol_fst, colValue]
      by_cases hx : x.1 = c
      · rw [if_pos hx, if_pos hx]
        have hhas : hasCol (x :: t) c = true := by
          simp [hasCol, List.any_cons, hx]
        by_cases hcp : c = pn
        · have hxpn : x.1 = pn := hx.trans hcp
          rw [show updCol index eff d pn x =
              (x.1, fun q => if eff ≤ q ∧ q ∈ index then x.2 q + d else x.2 q) from
            by rw [updCol, if_pos hxpn]]
          by_cases hcond : eff ≤ p ∧ p ∈ index
          · rw [if_pos ⟨hcp, hcond, hhas⟩]
            simp [hcond]
          · rw [if_neg (fun h => hcond h.2.1)]
            simp [hcond]
        · have hxpn : ¬ x.1 = pn := fun h => hcp (hx.symm.trans h)
          rw [show updCol index eff d pn x = x from by rw [updCol, if_neg hxpn]]
          rw [if_neg (fun h => hcp h.1)]
      · rw [if_neg hx, if_neg hx, colValue_map_updCol index eff d pn c p t]
        have hhas : hasCol (x :: t) c = hasCol t c := by
          simp [hasCol, List.any_cons, hx]
        rw [hhas]

lemma colValue_addToCol (index : List ℤ) (eff : ℤ) (d : ℚ) (tbl : PoolFrame)
    (pn c : String) (p : ℤ) :
    colValue (addToCol index eff d tbl pn) c p =
      if c = pn ∧ eff ≤ p ∧ p ∈ index then colValue tbl c p + d
      else colValue tbl c p := by
  have haddeq : addToCol index eff d tbl pn =
      (if hasCol tbl pn then tbl else tbl ++ [(pn, (fun _ => 0 : ℤ → ℚ))]).map
        (updCol index eff d pn) := rfl
  rw [haddeq]
  by_cases hh : hasCol tbl pn = true
  · rw [if_pos hh, colValue_map_updCol]
    by_cases hcp : c = pn
    · subst hcp
      rw [hh]
      by_cases hcond : eff ≤ p ∧ p ∈ index
      · rw [if_pos ⟨rfl, hcond, rfl⟩, if_pos ⟨rfl, hcond⟩]
      · rw [if_neg (fun h => hcond h.2.1), if_neg (fun h => hcond h.2)]
    · rw [if_neg (fun h => hcp h.1), if_neg (fun h => hcp h.1)]
  · have hh' : hasCol tbl pn = false := by simpa using hh
    rw [if_neg hh, colValue_map_updCol]
    by_cases hcp : c = pn
    · subst hcp
      have htblv : colValue tbl c p = 0 := colValue_of_hasCol_false hh' p
      have happv : colValue (tbl ++ [(c, fun _ => (0:ℚ))]) c p = 0 := by
        rw [colValue_append_of_hasCol_false hh']
        simp [colValue]
      have hhas : hasCol (tbl ++ [(c, fun _ => (0:ℚ))]) c = true := by
        simp [hasCol, List.any_append]
      by_cases hcond : eff ≤ p ∧ p ∈ index
      · rw [if_pos ⟨rfl, hcond, hhas⟩, if_pos ⟨rfl, hcond⟩, happv, htblv]
      · rw [if_neg (fun h => hcond h.2.1), if_neg (fun h => hcond h.2), happv, htblv]
    · have hne : ((pn, (fun _ => 0 : ℤ → ℚ)) : String × (ℤ → ℚ)).1 ≠ c := fun h => hcp h.symm
      rw [if_neg (fun h => hcp h.1), if_neg (fun h => hcp h.1),
        colValue_append_ne hne tbl p]

lemma hasCol_addToCol (index : List ℤ) (eff : ℤ) (d : ℚ) (tbl : PoolFrame) (pn : String) :
    hasCol (addToCol index eff d tbl pn) pn = true := by
  have haddeq : addToCol index eff d tbl pn =
      (if hasCol tbl pn then tbl else tbl ++ [(pn, (fun _ => 0 : ℤ → ℚ))]).map
        (updCol index eff d pn) := rfl
  rw [haddeq]
  by_cases hh : hasCol tbl pn = true
  · rw [if_pos hh]
    obtain ⟨x, hx, hxc⟩ := List.any_eq_true.mp hh
    refine List.any_eq_true.mpr ⟨updCol index eff d pn x, List.mem_map_of_mem _ hx, ?_⟩
    rw [updCol_fst]
    exact hxc
  · rw [if_neg hh]
    refine List.any_eq_true.mpr ⟨updCol index eff d pn (pn, (fun _ => 0 : ℤ → ℚ)), ?_, ?_⟩
    · exact List.mem_map_of_mem _ (by simp)
    · rw [updCol_fst]
      simp

lemma applyScenarioEventsPools_single (index : List ℤ) (tbl : PoolFrame)
    (ev : ScenarioEvent) (scenario : String) (hs : ev.scenario = scenario) :
    applyScenarioEventsPools index tbl [ev] scenario = applyEventPools index tbl ev := by
  unfold applyScenarioEventsPools
  simp [hs]

/-- C5: applying a single matching scenario event with effective period
2025-05 and `DeltaPoolFringe1 = 10000` leaves every pool value at every
period strictly before 2025-05 unchanged, and increases the Fringe1 pool by
exactly 10,000 at 2025-05 and at every later period of the projection's index
(the delta is sticky, not a one-month impulse). -/
theorem scenario_delta_sticky (index : List ℤ) (tbl : PoolFrame) (ev : ScenarioEvent)
    (scenario : String) (hs : ev.scenario = scenario)
    (heff : ev.effectivePeriod = mkPeriod 2025 5)
    (hpd : ev.poolDeltas = [("Fringe1", (10000 : ℚ))]) :
    (∀ p : ℤ, p < mkPeriod 2025 5 → ∀ c : String,
      colValue (applyScenarioEventsPools index tbl [ev] scenario) c p = colValue tbl c p)
    ∧ ∀ p ∈ index, mkPeriod 2025 5 ≤ p →
        colValue (applyScenarioEventsPools index tbl [ev] scenario) "Fringe1" p =
          colValue tbl "Fringe1" p + 10000 := by
  rw [applyScenarioEventsPools_single index tbl ev scenario hs]
  unfold applyEventPools
  by_cases hemp : (index.filter (fun p => ev.effectivePeriod ≤ p)).isEmpty
  · rw [if_pos hemp]
    refine ⟨fun _ _ _ => rfl, ?_⟩
    intro p hp hle
    exfalso
    have hmem : p ∈ index.filter (fun q => ev.effectivePeriod ≤ q) :=
      List.mem_filter.mpr ⟨hp, by simp [heff, hle]⟩
    rw [List.isEmpty_iff] at hemp
    rw [hemp] at hmem
    simp at hmem
  · rw [if_neg hemp, hpd]
    simp only [List.foldl_cons, List.foldl_nil]
    constructor
    · intro p hlt c
      rw [colValue_addToCol]
      rw [if_neg ?_]
      rintro ⟨-, hle, -⟩
      rw [heff] at hle
      omega
    · intro p hp hle
      rw [colValue_addToCol, if_pos ⟨rfl, by rw [heff]; exact hle, hp⟩]

/-- C10: a matching event carrying a `DeltaPool<Name>` delta for a pool name
absent from the projection's pool table (and applicable to at least one index
period) causes `apply_scenario_events` to create that pool column rather than
fail or ignore the delta: the new column is 0 at every period strictly before
the effective period and equals the delta at the effective period and at
every later index period. -/
theorem new_pool_column (index : List ℤ) (tbl : PoolFrame) (ev : ScenarioEvent)
    (scenario pn : String) (d : ℚ)
    (hs : ev.scenario = scenario) (hpd : ev.poolDeltas = [(pn, d)])
    (hnew : hasCol tbl pn = false)
    (happ : ∃ p ∈ index, ev.effectivePeriod ≤ p) :
    hasCol (applyScenarioEventsPools index tbl [ev] scenario) pn = true
    ∧ (∀ p : ℤ, p < ev.effectivePeriod →
        colValue (applyScenarioEventsPools index tbl [ev] scenario) pn p = 0)
    ∧ ∀ p ∈ index, ev.effectivePeriod ≤ p →
        colValue (applyScenarioEventsPools index tbl [ev] scenario) pn p = d := by
  rw [applyScenarioEventsPools_single index tbl ev scenario hs]
  unfold applyEventPools
  have hemp : (index.filter (fun p => ev.effectivePeriod ≤ p)).isEmpty = false := by
    obtain ⟨p, hp, hle⟩ := happ
    have hmem : p ∈ index.filter (fun q => ev.effectivePeriod ≤ q) :=
      List.mem_filter.mpr ⟨hp, by simp [hle]⟩
    rcases hfe : (index.filter (fun q => ev.effectivePeriod ≤ q)).isEmpty with _ | _
    · rfl
    · rw [List.isEmpty_iff] at hfe
      rw [hfe] at hmem
      simp at hmem
  rw [if_neg (by simp [hemp]), hpd]
  simp only [List.foldl_cons, List.foldl_nil]
  refine ⟨hasCol_addToCol index ev.effectivePeriod d tbl pn, ?_, ?_⟩
  · intro p hlt
    rw [colValue_addToCol]
    rw [if_neg (by rintro ⟨-, hle, -⟩; omega)]
    exact colValue_of_hasCol_false hnew p
  · intro p hp hle
    rw [colValue_addToCol, if_pos ⟨rfl, hle, hp⟩, colValue_of_hasCol_false hnew p,
      zero_add]

/-- Concrete period index for the C5/C10 witnesses: 2025-04 .. 2025-06. -/
def ind5 : List ℤ := [mkPeriod 2025 4, mkPeriod 2025 5, mkPeriod 2025 6]

/-- Concrete pool table for the C5/C10 witnesses: one Fringe1 column, constant 7. -/
def tbl5 : PoolFrame := [("Fringe1", fun _ => 7)]

/-- Concrete event for the C5 witness. -/
def ev5 : ScenarioEvent := ⟨"S", mkPeriod 2025 5, "", 0, 0, 0, 0, 0, [("Fringe1", 10000)]⟩

/-- Witness for C5: at the concrete three-period projection the Fringe1 value
of 2025-04 is unchanged and the value of 2025-05 is increased by 10,000. -/
theorem scenario_delta_sticky_witness :
    colValue (applyScenarioEventsPools ind5 tbl5 [ev5] "S") "Fringe1" (mkPeriod 2025 4) =
      colValue tbl5 "Fringe1" (mkPeriod 2025 4)
    ∧ colValue (applyScenarioEventsPools ind5 tbl5 [ev5] "S") "Fringe1" (mkPeriod 2025 5) =
        colValue tbl5 "Fringe1" (mkPeriod 2025 5) + 10000 := by
  have h := scenario_delta_sticky ind5 tbl5 ev5 "S" rfl rfl rfl
  exact ⟨h.1 (mkPeriod 2025 4) (by norm_num [mkPeriod]) "Fringe1",
    h.2 (mkPeriod 2025 5) (by simp [ind5]) (le_refl _)⟩

/-- Concrete event for the C10 witness: a delta for a pool absent from `tbl5`. -/
def ev10 : ScenarioEvent := ⟨"S", mkPeriod 2025 5, "", 0, 0, 0, 0, 0, [("NewPool", 42)]⟩

/-- Witness for C10: the NewPool column is created, is 0 at 2025-04 and is 42
at 2025-05. -/
theorem new_pool_column_witness :
    hasCol (applyScenarioEventsPools ind5 tbl5 [ev10] "S") "NewPool" = true
    ∧ colValue (applyScenarioEventsPools ind5 tbl5 [ev10] "S") "NewPool" (mkPeriod 2025 4) = 0
    ∧ colValue (applyScenarioEventsPools ind5 tbl5 [ev10] "S") "NewPool" (mkPeriod 2025 5) =
        42 := by
  have h := new_pool_column ind5 tbl5 ev10 "S" "NewPool" 42 rfl rfl rfl
    ⟨mkPeriod 2025 5, by simp [ind5], le_refl _⟩
  exact ⟨h.1, h.2.1 (mkPeriod 2025 4) (by norm_num [mkPeriod, ev10]),
    h.2.2 (mkPeriod 2025 5) (by simp [ind5]) (by norm_num [ev10])⟩

/-! ### Base reconciliation (`model.py` `compute_actual_aggregates`, lines 107-119) -/

/-- The total of one base column over the period index (`gl_bases[key].sum()`,
`dc_bases[key].sum()`). -/
def baseTotal (index : List ℤ) (b : ℤ → String → ℚ) (key : String) : ℚ :=
  (index.map (fun p => b p key)).sum

/-- The reconciliation check of `compute_actual_aggregates` (`model.py` lines
107-119): for each of the keys DL and TCI that is present in both the
GL-derived and the project-ledger-derived base tables and whose
project-ledger total is positive, a warning is appended exactly when
`abs(gl_total - dc_total) / dc_total > 0.05`.  Each warning is modelled by
the base key it names; the check only appends to the warnings list and can
never fail. -/
def reconWarningKeys (index : List ℤ) (glBases dcBases : ℤ → String → ℚ)
    (glCols dcCols : List String) : List String :=
  ["DL", "TCI"].filter (fun key =>
    key ∈ glCols ∧ key ∈ dcCols ∧ 0 < baseTotal index dcBases key ∧
      |baseTotal index glBases key - baseTotal index dcBases key| /
        baseTotal index dcBases key > 1/20)

/-- C9 (amended): a reconciliation warning is emitted for a base key exactly
when the key is DL or TCI, is present in both base tables, the project-ledger
total is positive, and the two totals disagree by more than 5% of the
**project-ledger** total (the code divides by `dc_total`, not by the
GL-derived / ledger-primary total); the discrepancy only appends a warning
and never causes a failure. -/
theorem recon_warning_iff (index : List ℤ) (glBases dcBases : ℤ → String → ℚ)
    (glCols dcCols : List String) (key : String) :
    key ∈ reconWarningKeys index glBases dcBases glCols dcCols ↔
      ((key = "DL" ∨ key = "TCI") ∧ key ∈ glCols ∧ key ∈ dcCols ∧
        0 < baseTotal index dcBases key ∧
        (1/20) * baseTotal index dcBases key <
          |baseTotal index glBases key - baseTotal index dcBases key|) := by
  unfold reconWarningKeys
  rw [List.mem_filter]
  constructor
  · rintro ⟨hmem, hcond⟩
    simp only [decide_eq_true_eq] at hcond
    obtain ⟨h1, h2, h3, h4⟩ := hcond
    rw [gt_iff_lt, lt_div_iff₀ h3] at h4
    refine ⟨by simpa using hmem, h1, h2, h3, by linarith⟩
  · rintro ⟨hk, h1, h2, h3, h4⟩
    refine ⟨by simpa using hk, ?_⟩
    simp only [decide_eq_true_eq]
    exact ⟨h1, h2, h3, by rw [gt_iff_lt, lt_div_iff₀ h3]; linarith⟩

/-- GL-derived bases for the C9 counterexample: DL total 100. -/
def c9Gl : ℤ → String → ℚ := fun _ k => if k = "DL" then 100 else 0

/-- Project-ledger bases for the C9 counterexample: DL total 95. -/
def c9Dc : ℤ → String → ℚ := fun _ k => if k = "DL" then 95 else 0

/-- Counterexample to C9 as stated: with GL-derived DL total 100 and
project-ledger DL total 95, the code emits the warning (5/95 ≈ 5.26% > 5%),
although the disagreement is not more than 5% of the ledger-primary
(GL-derived) total (5 = 5% of 100 exactly), so the claim's threshold predicts
no warning. -/
theorem recon_warning_cex :
    "DL" ∈ reconWarningKeys [0] c9Gl c9Dc ["DL"] ["DL"]
    ∧ |baseTotal [0] c9Gl "DL" - baseTotal [0] c9Dc "DL"| ≤
        (1/20) * baseTotal [0] c9Gl "DL" := by
  constructor
  · unfold reconWarningKeys
    rw [List.mem_filter]
    refine ⟨by simp, ?_⟩
    simp only [decide_eq_true_eq]
    norm_num [baseTotal, c9Gl, c9Dc]
  · norm_num [baseTotal, c9Gl, c9Dc]

/-- Witness instantiating the amended C9 equivalence at the concrete tables. -/
theorem recon_warning_iff_witness :
    ("DL" ∈ reconWarningKeys [0] c9Gl c9Dc ["DL"] ["DL"]) ↔
      ((("DL" : String) = "DL" ∨ ("DL" : String) = "TCI") ∧
        ("DL" : String) ∈ (["DL"] : List String) ∧
        ("DL" : String) ∈ (["DL"] : List String) ∧
        0 < baseTotal [0] c9Dc "DL" ∧
        (1/20) * baseTotal [0] c9Dc "DL" <
          |baseTotal [0] c9Gl "DL" - baseTotal [0] c9Dc "DL"|) :=
  recon_warning_iff [0] c9Gl c9Dc ["DL"] ["DL"] "DL"

end IndirectRates
